import Mathlib

/-!
Verification of the kynai chat client core against its natural-language
specification.  Text is modelled as `List Char`; for the JavaScript string
operations used by the source (`trim`, `trimStart`, `slice`, `replace` with a
plain-string pattern, `startsWith`) we give executable list-level models, and
the single regex `/<think>([\s\S]*?)<\/think>/` is modelled by its
leftmost-match / lazy-capture semantics (`thinkMatch`).
-/

namespace Kynai

/-- ASCII subset of the whitespace class trimmed by JavaScript `trim` /
`trimStart`: space, tab, newline, carriage return, vertical tab, form feed. -/
def isWS (c : Char) : Bool :=
  c = ' ' || c = '\t' || c = '\n' || c = '\r' || c = Char.ofNat 11 || c = Char.ofNat 12

/-- JavaScript `String.prototype.trimStart`. -/
def trimStart (s : List Char) : List Char := s.dropWhile isWS

/-- JavaScript `String.prototype.trimEnd`. -/
def trimEnd (s : List Char) : List Char := (s.reverse.dropWhile isWS).reverse

/-- JavaScript `String.prototype.trim`. -/
def trim (s : List Char) : List Char := trimEnd (trimStart s)

/-- Index of the first occurrence of `pat` as a contiguous sublist of `s`
(`String.prototype.indexOf`). -/
def indexOfSub (pat : List Char) : List Char → Option Nat
  | [] => if pat = [] then some 0 else none
  | c :: rest =>
    if pat <+: (c :: rest) then some 0 else (indexOfSub pat rest).map (· + 1)

/-- JavaScript `String.prototype.replace` with a plain-string pattern:
replaces the first occurrence of `pat` (if any) by `repl`. -/
def replaceFirst (pat repl s : List Char) : List Char :=
  match indexOfSub pat s with
  | none => s
  | some i => s.take i ++ repl ++ s.drop (i + pat.length)

/-- The open marker of the thought delimiter pair. -/
def openTag : List Char := "<think>".toList

/-- The close marker of the thought delimiter pair. -/
def closeTag : List Char := "</think>".toList

/-- Semantics of `rawText.match(/<think>([\s\S]*?)<\/think>/)`: the match
starts at the first occurrence of the open marker and the lazy capture ends at
the first occurrence of the close marker after it.  Returns `(i, d)` where `i`
is the index of the open marker in `rawText` and `d` is the offset of the
close marker from the end of the open marker, so the capture is
`(rawText.drop (i + 7)).take d` and the whole matched span is
`(rawText.drop i).take (7 + d + 8)`. -/
def thinkMatch (rawText : List Char) : Option (Nat × Nat) :=
  (indexOfSub openTag rawText).bind fun i =>
    (indexOfSub closeTag (rawText.drop (i + 7))).map fun d => (i, d)

/-- Result of the think-tag parsing block of `ChatMessage`: the thought
segment, the final-answer segment and the inside-thought flag. -/
structure Classified where
  thoughtContent : List Char
  finalContent : List Char
  isThinkingProcess : Bool
deriving DecidableEq, Repr

/-- The think-tag parsing block of `ChatMessage` for a model (non-user)
message: Case 1 a completed `<think>...</think>` block, Case 2 strictly
inside a thinking block, Case 3 the open marker still arriving
character-by-character while streaming, Case 4 plain text. -/
def classify (rawText : List Char) (isStreaming : Bool) : Classified :=
  match thinkMatch rawText with
  | some (i, d) =>
    { thoughtContent := (rawText.drop (i + 7)).take d
      finalContent := trim (replaceFirst ((rawText.drop i).take (7 + d + 8)) [] rawText)
      isThinkingProcess := false }
  | none =>
    if openTag <+: trimStart rawText then
      { thoughtContent := replaceFirst openTag [] (trimStart rawText)
        finalContent := []
        isThinkingProcess := true }
    else if isStreaming ∧ (trimStart rawText).length < 10 ∧ ['<'] <+: trimStart rawText
        ∧ trimStart rawText <+: openTag then
      { thoughtContent := []
        finalContent := []
        isThinkingProcess := true }
    else
      { thoughtContent := []
        finalContent := rawText
        isThinkingProcess := false }

theorem indexOfSub_some_le (pat : List Char) :
    ∀ (l : List Char) (i : Nat), indexOfSub pat l = some i → i + pat.length ≤ l.length := by
  intro l
  induction l with
  | nil =>
    intro i h
    unfold indexOfSub at h
    split at h
    · cases h
      simp_all
    · cases h
  | cons c rest ih =>
    intro i h
    simp only [indexOfSub] at h
    split at h
    case isTrue hpre =>
      cases h
      simpa using hpre.length_le
    case isFalse hpre =>
      obtain ⟨j, hj, rfl⟩ := Option.map_eq_some'.mp h
      have := ih j hj
      simp only [List.length_cons]
      omega

theorem indexOfSub_some_isPrefix (pat : List Char) :
    ∀ (l : List Char) (i : Nat), indexOfSub pat l = some i → pat <+: l.drop i := by
  intro l
  induction l with
  | nil =>
    intro i h
    unfold indexOfSub at h
    split at h
    · cases h
      simp_all
    · cases h
  | cons c rest ih =>
    intro i h
    simp only [indexOfSub] at h
    split at h
    case isTrue hpre =>
      cases h
      simpa using hpre
    case isFalse hpre =>
      obtain ⟨j, hj, rfl⟩ := Option.map_eq_some'.mp h
      simpa using ih j hj

theorem indexOfSub_some_min (pat : List Char) :
    ∀ (l : List Char) (i : Nat), indexOfSub pat l = some i →
      ∀ k, k < i → ¬ pat <+: l.drop k := by
  intro l
  induction l with
  | nil =>
    intro i h
    unfold indexOfSub at h
    split at h
    · cases h
      omega
    · cases h
  | cons c rest ih =>
    intro i h
    simp only [indexOfSub] at h
    split at h
    case isTrue hpre =>
      cases h
      omega
    case isFalse hpre =>
      obtain ⟨j, hj, rfl⟩ := Option.map_eq_some'.mp h
      intro k hk
      match k with
      | 0 => simpa using hpre
      | k' + 1 =>
        simp only [List.drop_succ_cons]
        exact ih j hj k' (by omega)

theorem indexOfSub_eq_some (pat : List Char) :
    ∀ (l : List Char) (i : Nat), pat <+: l.drop i →
      (∀ k, k < i → ¬ pat <+: l.drop k) → indexOfSub pat l = some i := by
  intro l
  induction l with
  | nil =>
    intro i hocc hmin
    simp only [List.drop_nil, List.prefix_nil] at hocc
    subst hocc
    match i with
    | 0 => rfl
    | i' + 1 => exact absurd (by simp) (hmin 0 (by omega))
  | cons c rest ih =>
    intro i hocc hmin
    match i with
    | 0 =>
      simp only [List.drop_zero] at hocc
      simp only [indexOfSub, if_pos hocc]
    | j + 1 =>
      have hne : ¬ pat <+: c :: rest := by simpa using hmin 0 (by omega)
      simp only [indexOfSub, if_neg hne]
      rw [ih j (by simpa using hocc) (fun k hk => by simpa using hmin (k + 1) (by omega))]
      rfl

theorem prefix_of_prefix_append (l₁ l₂ l₃ : List Char) (h1 : l₁ <+: l₂ ++ l₃)
    (h2 : l₁.length ≤ l₂.length) : l₁ <+: l₂ := by
  have h3 := List.prefix_iff_eq_take.mp h1
  rw [List.take_append_eq_append_take, Nat.sub_eq_zero_of_le h2, List.take_zero,
    List.append_nil] at h3
  exact h3 ▸ List.take_prefix _ _

theorem indexOfSub_append (pat t : List Char) (hp : pat ≠ []) :
    ∀ (l : List Char) (i : Nat), indexOfSub pat l = some i →
      indexOfSub pat (l ++ t) = some i := by
  intro l
  induction l with
  | nil =>
    intro i h
    unfold indexOfSub at h
    split at h
    · simp_all
    · cases h
  | cons c rest ih =>
    intro i h
    simp only [indexOfSub] at h
    rw [List.cons_append]
    simp only [indexOfSub]
    split at h
    case isTrue hpre =>
      cases h
      rw [if_pos (by rw [← List.cons_append]; exact hpre.trans (List.prefix_append _ _))]
    case isFalse hpre =>
      obtain ⟨j, hj, rfl⟩ := Option.map_eq_some'.mp h
      have hb := indexOfSub_some_le pat rest j hj
      have hne : ¬ pat <+: c :: (rest ++ t) := by
        intro hcon
        refine hpre (prefix_of_prefix_append pat (c :: rest) t ?_ ?_)
        · rw [List.cons_append]
          exact hcon
        · simp only [List.length_cons]
          omega
      rw [if_neg hne, ih j hj]
      rfl

theorem indexOfSub_none_of_lt (pat : List Char) :
    ∀ (l : List Char), l.length < pat.length → indexOfSub pat l = none := by
  intro l
  induction l with
  | nil =>
    intro h
    unfold indexOfSub
    rw [if_neg]
    intro he
    subst he
    simp at h
  | cons c rest ih =>
    intro h
    simp only [List.length_cons] at h
    simp only [indexOfSub]
    rw [if_neg fun hpre => by have := hpre.length_le; simp only [List.length_cons] at this; omega]
    rw [ih (by omega)]
    rfl

theorem indexOfSub_ws_append_none (pat : List Char) (c0 : Char) (p' : List Char)
    (hpat : pat = c0 :: p') (hc0 : isWS c0 = false) :
    ∀ (w rest : List Char), (∀ c ∈ w, isWS c = true) →
      indexOfSub pat rest = none → indexOfSub pat (w ++ rest) = none := by
  intro w
  induction w with
  | nil =>
    intro rest _ hnone
    simpa using hnone
  | cons c w' ih =>
    intro rest hw hnone
    rw [List.cons_append]
    simp only [indexOfSub]
    rw [if_neg]
    · rw [ih rest (fun x hx => hw x (by simp [hx])) hnone]
      rfl
    · intro hpre
      subst hpat
      obtain ⟨r, hr⟩ := hpre
      have : c0 = c := by
        have := congrArg (·.head?) hr
        simpa using this
      rw [this] at hc0
      rw [hw c (by simp)] at hc0
      cases hc0

theorem thinkMatch_some_elim (raw : List Char) (i d : Nat) (h : thinkMatch raw = some (i, d)) :
    indexOfSub openTag raw = some i ∧ indexOfSub closeTag (raw.drop (i + 7)) = some d := by
  unfold thinkMatch at h
  obtain ⟨i0, ho, hmap⟩ := Option.bind_eq_some.mp h
  obtain ⟨d0, hc, hd⟩ := Option.map_eq_some'.mp hmap
  simp only [Prod.mk.injEq] at hd
  obtain ⟨rfl, rfl⟩ := hd
  exact ⟨ho, hc⟩

theorem thinkMatch_eq_some (raw : List Char) (i d : Nat)
    (ho : indexOfSub openTag raw = some i)
    (hc : indexOfSub closeTag (raw.drop (i + 7)) = some d) :
    thinkMatch raw = some (i, d) := by
  unfold thinkMatch
  rw [ho, Option.some_bind, hc, Option.map_some']

theorem thinkMatch_append (B t : List Char) (i d : Nat) (h : thinkMatch B = some (i, d)) :
    thinkMatch (B ++ t) = some (i, d) := by
  obtain ⟨ho, hc⟩ := thinkMatch_some_elim B i d h
  have hb : i + 7 ≤ B.length := by
    have := indexOfSub_some_le openTag B i ho
    simpa using this
  have hdrop : (B ++ t).drop (i + 7) = B.drop (i + 7) ++ t := by
    rw [List.drop_append_eq_append_drop, Nat.sub_eq_zero_of_le hb, List.drop_zero]
  refine thinkMatch_eq_some _ i d (indexOfSub_append openTag t (by decide) B i ho) ?_
  rw [hdrop]
  exact indexOfSub_append closeTag t (by decide) _ d hc

theorem classify_of_thinkMatch (raw : List Char) (s : Bool) (i d : Nat)
    (h : thinkMatch raw = some (i, d)) :
    classify raw s =
      { thoughtContent := (raw.drop (i + 7)).take d
        finalContent := trim (replaceFirst ((raw.drop i).take (7 + d + 8)) [] raw)
        isThinkingProcess := false } := by
  unfold classify
  rw [h]

example : classify "<think>hello</think>world".toList false =
    { thoughtContent := "hello".toList, finalContent := "world".toList,
      isThinkingProcess := false } := by decide

example : classify "<think>partial".toList true =
    { thoughtContent := "partial".toList, finalContent := [],
      isThinkingProcess := true } := by decide

example : classify "<thi".toList true =
    { thoughtContent := [], finalContent := [], isThinkingProcess := true } := by decide

example : classify "hello there".toList true =
    { thoughtContent := [], finalContent := "hello there".toList,
      isThinkingProcess := false } := by decide

example : classify "  <think>a</think> b ".toList false =
    { thoughtContent := "a".toList, finalContent := "b".toList,
      isThinkingProcess := false } := by decide

theorem replaceFirst_matchSpan (raw : List Char) (i d : Nat)
    (ho : indexOfSub openTag raw = some i)
    (hc : indexOfSub closeTag (raw.drop (i + 7)) = some d) :
    replaceFirst ((raw.drop i).take (7 + d + 8)) [] raw =
      raw.take i ++ raw.drop (i + (7 + d + 8)) := by
  have h7 : openTag.length = 7 := rfl
  have h8 : closeTag.length = 8 := rfl
  have hb1 : i + 7 ≤ raw.length := by
    have := indexOfSub_some_le openTag raw i ho
    rw [h7] at this
    exact this
  have hb2 : d + 8 ≤ raw.length - (i + 7) := by
    have := indexOfSub_some_le closeTag (raw.drop (i + 7)) d hc
    rw [h8, List.length_drop] at this
    exact this
  have hdroplen : (raw.drop i).length = raw.length - i := List.length_drop i raw
  have hspanlen : ((raw.drop i).take (7 + d + 8)).length = 7 + d + 8 := by
    rw [List.length_take, hdroplen]
    omega
  have hopen_drop : openTag <+: raw.drop i := indexOfSub_some_isPrefix openTag raw i ho
  have hopen_span : openTag <+: (raw.drop i).take (7 + d + 8) := by
    have heq : openTag = ((raw.drop i).take (7 + d + 8)).take 7 := by
      rw [List.take_take, Nat.min_def, if_pos (by omega)]
      have := List.prefix_iff_eq_take.mp hopen_drop
      rwa [h7] at this
    rw [heq]
    exact List.take_prefix _ _
  have hocc : (raw.drop i).take (7 + d + 8) <+: raw.drop i := List.take_prefix _ _
  have hmin : ∀ k, k < i → ¬ (raw.drop i).take (7 + d + 8) <+: raw.drop k := by
    intro k hk hcon
    exact indexOfSub_some_min openTag raw i ho k hk (hopen_span.trans hcon)
  have hidx : indexOfSub ((raw.drop i).take (7 + d + 8)) raw = some i :=
    indexOfSub_eq_some _ raw i hocc hmin
  unfold replaceFirst
  rw [hidx, hspanlen]
  show List.take i raw ++ [] ++ List.drop (i + (7 + d + 8)) raw =
    List.take i raw ++ List.drop (i + (7 + d + 8)) raw
  rw [List.append_nil]

/-- C4: whenever the buffer contains a complete `<think>...</think>` pair
(`thinkMatch raw = some (i, d)`), classification returns the captured inner
text as the thought, the buffer with the whole matched span removed and
trimmed as the answer, and reports not-inside-thought.  The concrete instance
of the claim is `classify_complete_pair_witness`. -/
theorem classify_complete_pair (raw : List Char) (s : Bool) (i d : Nat)
    (h : thinkMatch raw = some (i, d)) :
    classify raw s =
      { thoughtContent := (raw.drop (i + 7)).take d
        finalContent := trim (raw.take i ++ raw.drop (i + (7 + d + 8)))
        isThinkingProcess := false } := by
  obtain ⟨ho, hc⟩ := thinkMatch_some_elim raw i d h
  rw [classify_of_thinkMatch raw s i d h, replaceFirst_matchSpan raw i d ho hc]

/-- Witness for C4 at the spec's concrete input:
`classify("<think>hello</think>world")` yields
`{thought := "hello", answer := "world", isInsideThought := false}`. -/
theorem classify_complete_pair_witness :
    thinkMatch "<think>hello</think>world".toList = some (0, 5) ∧
    classify "<think>hello</think>world".toList false =
      { thoughtContent := "hello".toList, finalContent := "world".toList,
        isThinkingProcess := false } := by
  refine ⟨by decide, ?_⟩
  rw [classify_complete_pair "<think>hello</think>world".toList false 0 5 (by decide)]
  decide

/-- C2: growing the buffer never rewrites a settled thought segment.  If
classifying `B` finds a complete `<think>...</think>` pair (so the segment is
settled and not inside-thought), then for any extension `B ++ suffix` the
thought of the extension starts with the thought of `B` (they are in fact
equal: the leftmost open marker and the first close marker after it cannot
move when text is appended). -/
theorem classify_thought_monotone (B suffix : List Char) (s s' : Bool) (p : Nat × Nat)
    (h : thinkMatch B = some p) :
    (classify B s).isThinkingProcess = false ∧
    (classify B s).thoughtContent <+: (classify (B ++ suffix) s').thoughtContent := by
  obtain ⟨i, d⟩ := p
  obtain ⟨ho, hc⟩ := thinkMatch_some_elim B i d h
  have h2 := thinkMatch_append B suffix i d h
  rw [classify_of_thinkMatch B s i d h, classify_of_thinkMatch (B ++ suffix) s' i d h2]
  refine ⟨rfl, ?_⟩
  have h7 : openTag.length = 7 := rfl
  have h8 : closeTag.length = 8 := rfl
  have hb : i + 7 ≤ B.length := by
    have := indexOfSub_some_le openTag B i ho
    rw [h7] at this
    exact this
  have hd : d ≤ (B.drop (i + 7)).length := by
    have := indexOfSub_some_le closeTag (B.drop (i + 7)) d hc
    rw [h8] at this
    omega
  have hdrop : (B ++ suffix).drop (i + 7) = B.drop (i + 7) ++ suffix := by
    rw [List.drop_append_eq_append_drop, Nat.sub_eq_zero_of_le hb, List.drop_zero]
  rw [hdrop, List.take_append_eq_append_take, Nat.sub_eq_zero_of_le hd, List.take_zero,
    List.append_nil]

/-- Witness for C2 at the concrete buffer `"<think>a</think>b"` extended by
`"c"`. -/
theorem classify_thought_monotone_witness :
    (classify "<think>a</think>b".toList true).isThinkingProcess = false ∧
    (classify "<think>a</think>b".toList true).thoughtContent <+:
      (classify ("<think>a</think>b".toList ++ "c".toList) false).thoughtContent :=
  classify_thought_monotone "<think>a</think>b".toList "c".toList true false (0, 1)
    (by decide)

/-- C3: while the open marker is still arriving character-by-character (the
trimmed buffer is a non-empty strict prefix of `<think>` starting with `<`)
a streaming model message is classified inside-thought with empty thought and
empty answer, and at the successive state `"<think>partial"` it is classified
inside-thought with thought `"partial"` and empty answer; in both states the
answer segment is empty, so neither `<thi` nor `<think>` can appear in it. -/
theorem classify_marker_arriving (raw : List Char)
    (_h1 : trimStart raw ≠ []) (h0 : ['<'] <+: trimStart raw)
    (h2 : trimStart raw <+: openTag) (h3 : trimStart raw ≠ openTag) :
    classify raw true = { thoughtContent := [], finalContent := [], isThinkingProcess := true } ∧
    classify "<think>partial".toList true =
      { thoughtContent := "partial".toList, finalContent := [], isThinkingProcess := true } := by
  refine ⟨?_, by decide⟩
  have h7 : openTag.length = 7 := rfl
  have hle := h2.length_le
  rw [h7] at hle
  have hlt : (trimStart raw).length < 7 := by
    rcases Nat.eq_or_lt_of_le hle with heq | hlt
    · exact absurd (h2.eq_of_length (by rw [h7]; exact heq)) h3
    · exact hlt
  have hnone_clean : indexOfSub openTag (trimStart raw) = none :=
    indexOfSub_none_of_lt openTag _ (by rw [h7]; exact hlt)
  have hnone_raw : indexOfSub openTag raw = none := by
    have hmem : ∀ c ∈ raw.takeWhile isWS, isWS c = true := fun c hc =>
      List.mem_takeWhile_imp hc
    have := indexOfSub_ws_append_none openTag '<' "think>".toList rfl (by decide)
      (raw.takeWhile isWS) (trimStart raw) hmem hnone_clean
    simp only [trimStart] at this
    rwa [List.takeWhile_append_dropWhile] at this
  have hmatch : thinkMatch raw = none := by
    unfold thinkMatch
    rw [hnone_raw]
    rfl
  have hno_open : ¬ openTag <+: trimStart raw := by
    intro hcon
    have := hcon.length_le
    rw [h7] at this
    omega
  unfold classify
  rw [hmatch, if_neg hno_open, if_pos ⟨rfl, by omega, h0, h2⟩]

/-- Witness for C3 at the concrete buffer `"<thi"`. -/
theorem classify_marker_arriving_witness :
    classify "<thi".toList true =
      { thoughtContent := [], finalContent := [], isThinkingProcess := true } ∧
    classify "<think>partial".toList true =
      { thoughtContent := "partial".toList, finalContent := [], isThinkingProcess := true } :=
  classify_marker_arriving "<thi".toList (by decide) (by decide) (by decide) (by decide)

/-! ## Data model (`types.ts`) -/

/-- `MessageRole` from `types.ts`. -/
inductive MessageRole
  | user
  | model
deriving DecidableEq, Repr

/-- `ModelProvider` from `types.ts`. -/
inductive ModelProvider
  | gemini
  | gpt
deriving DecidableEq, Repr

/-- `WebSource` from `types.ts`. -/
structure WebSource where
  uri : List Char
  title : List Char
deriving DecidableEq, Repr

/-- One entry of `GroundingMetadata.groundingChunks` from `types.ts`. -/
structure GroundingChunk where
  web : Option WebSource
deriving DecidableEq, Repr

/-- `GroundingMetadata` from `types.ts`. -/
structure GroundingMetadata where
  groundingChunks : List GroundingChunk
  webSearchQueries : Option (List (List Char)) := none
deriving DecidableEq, Repr

/-- `Attachment` from `types.ts` (the fields the core consumes; the UI-only
fields `id`, `name`, `size`, `type` are omitted). -/
structure Attachment where
  mimeType : List Char
  data : List Char
deriving DecidableEq, Repr

/-- `Message` from `types.ts`.  The optional `attachments` array is modelled
as a plain list, with `[]` standing for both `undefined` and an empty
array (the source only ever tests `attachments && attachments.length > 0`). -/
structure Message where
  id : Nat
  role : MessageRole
  text : List Char
  attachments : List Attachment := []
  timestamp : Nat := 0
  isStreaming : Bool := false
  groundingMetadata : Option GroundingMetadata := none
  modelProvider : Option ModelProvider := none
deriving DecidableEq, Repr

/-- The web-source extraction of `ChatMessage`
(`groundingChunks?.filter(chunk => chunk.web).map(chunk => chunk.web!)`). -/
def webSources (md : GroundingMetadata) : List WebSource :=
  md.groundingChunks.filterMap (·.web)

/-! ## Stream orchestrator (`handleSendMessage` in the app root) -/

/-- One invocation of the provider's `onChunk` callback: the delta text and
the (possibly absent) grounding metadata. -/
structure ChunkEvent where
  chunk : List Char
  metadata : Option GroundingMetadata := none
deriving DecidableEq, Repr

/-- The `onChunk` callback of `handleSendMessage`: appends the chunk to the
streaming message's text and keeps the previous metadata only when the chunk
carries none (`metadata || msg.groundingMetadata`). -/
def applyChunk (botMsgId : Nat) (ev : ChunkEvent) (msgs : List Message) : List Message :=
  msgs.map fun msg =>
    if msg.id = botMsgId then
      { msg with
        text := msg.text ++ ev.chunk
        groundingMetadata :=
          match ev.metadata with
          | some g => some g
          | none => msg.groundingMetadata }
    else msg

/-- The chunk callbacks of one stream, applied in arrival order. -/
def applyChunks (botMsgId : Nat) (evs : List ChunkEvent) (msgs : List Message) : List Message :=
  evs.foldl (fun s ev => applyChunk botMsgId ev s) msgs

/-- The post-`await` update of `handleSendMessage` on success: flips
`isStreaming` off, leaving the text as accumulated. -/
def finishStream (botMsgId : Nat) (msgs : List Message) : List Message :=
  msgs.map fun msg => if msg.id = botMsgId then { msg with isStreaming := false } else msg

/-- The fixed apology string of the catch branch. -/
def apologyText : List Char := "Sorry, something went wrong. Please try again.".toList

/-- The catch branch of `handleSendMessage`: replaces the streaming message's
text with the fixed apology string and flips `isStreaming` off. -/
def failStream (botMsgId : Nat) (msgs : List Message) : List Message :=
  msgs.map fun msg =>
    if msg.id = botMsgId then { msg with text := apologyText, isStreaming := false } else msg

/-- The placeholder model message created before the provider is invoked. -/
def mkBotMsg (botMsgId : Nat) (ts : Nat) (provider : ModelProvider) : Message :=
  { id := botMsgId, role := .model, text := [], timestamp := ts, isStreaming := true,
    modelProvider := some provider }

/-- Outcome of one provider stream as observed by `handleSendMessage`: either
it completes after delivering its chunk callbacks, or it throws after having
delivered some prefix of them. -/
inductive StreamOutcome
  | success (events : List ChunkEvent)
  | failure (eventsBeforeError : List ChunkEvent)
deriving DecidableEq, Repr

/-- `handleSendMessage` as a state transformer on the message list: the user
message is appended synchronously, then the streaming placeholder, then the
chunk callbacks fire in order, and finally either the success epilogue or the
catch branch runs.  The provider is invoked exactly once; there is no retry
path. -/
def handleSendMessage (prev : List Message) (userMsg botMsg : Message)
    (outcome : StreamOutcome) : List Message :=
  match outcome with
  | .success evs => finishStream botMsg.id (applyChunks botMsg.id evs ((prev ++ [userMsg]) ++ [botMsg]))
  | .failure evs => failStream botMsg.id (applyChunks botMsg.id evs ((prev ++ [userMsg]) ++ [botMsg]))

/-- `metadata || msg.groundingMetadata` folded over a whole stream: the last
chunk that carried metadata wins, else the initial value is kept. -/
def lastSomeMeta (evs : List ChunkEvent) (init : Option GroundingMetadata) :
    Option GroundingMetadata :=
  evs.foldl
    (fun acc ev =>
      match ev.metadata with
      | some g => some g
      | none => acc)
    init

theorem map_updateById_append (prev : List Message) (b : Message) (botId : Nat)
    (f : Message → Message) (hprev : ∀ m ∈ prev, m.id ≠ botId) (hb : b.id = botId) :
    ((prev ++ [b]).map fun m => if m.id = botId then f m else m) = prev ++ [f b] := by
  rw [List.map_append]
  congr 1
  · calc (prev.map fun m => if m.id = botId then f m else m)
        = prev.map id := List.map_congr_left fun m hm => if_neg (hprev m hm)
      _ = prev := List.map_id prev
  · simp [hb]

theorem applyChunk_append (prev : List Message) (b : Message) (botId : Nat) (ev : ChunkEvent)
    (hprev : ∀ m ∈ prev, m.id ≠ botId) (hb : b.id = botId) :
    applyChunk botId ev (prev ++ [b]) =
      prev ++ [{ b with
        text := b.text ++ ev.chunk
        groundingMetadata :=
          match ev.metadata with
          | some g => some g
          | none => b.groundingMetadata }] :=
  map_updateById_append prev b botId _ hprev hb

theorem applyChunks_append (botId : Nat) :
    ∀ (evs : List ChunkEvent) (prev : List Message) (b : Message),
      (∀ m ∈ prev, m.id ≠ botId) → b.id = botId →
      applyChunks botId evs (prev ++ [b]) =
        prev ++ [{ b with
          text := b.text ++ (evs.map (·.chunk)).flatten
          groundingMetadata := lastSomeMeta evs b.groundingMetadata }] := by
  intro evs
  induction evs with
  | nil =>
    intro prev b _ _
    simp [applyChunks, lastSomeMeta]
  | cons ev rest ih =>
    intro prev b hprev hb
    have hstep := applyChunk_append prev b botId ev hprev hb
    show applyChunks botId rest (applyChunk botId ev (prev ++ [b])) = _
    rw [hstep,
      ih prev
        { b with
          text := b.text ++ ev.chunk
          groundingMetadata :=
            match ev.metadata with
            | some g => some g
            | none => b.groundingMetadata }
        hprev hb]
    simp [lastSomeMeta, List.append_assoc]

/-- C5: over a whole successful stream, the placeholder model message (created
with empty text and `isStreaming = true`) accumulates exactly the
concatenation of the chunk texts in arrival order — every callback is a pure
append — and the completion epilogue flips `isStreaming` to false leaving the
text as accumulated.  The other messages are untouched. -/
theorem streaming_text_append_only (prev : List Message) (userMsg : Message)
    (botId ts : Nat) (p : ModelProvider) (evs : List ChunkEvent)
    (hprev : ∀ m ∈ prev, m.id ≠ botId) (hu : userMsg.id ≠ botId) :
    handleSendMessage prev userMsg (mkBotMsg botId ts p) (.success evs) =
      (prev ++ [userMsg]) ++
        [{ mkBotMsg botId ts p with
            text := (evs.map (·.chunk)).flatten
            isStreaming := false
            groundingMetadata := lastSomeMeta evs none }] := by
  have hprev2 : ∀ m ∈ prev ++ [userMsg], m.id ≠ botId := by
    intro m hm
    rcases List.mem_append.mp hm with h | h
    · exact hprev m h
    · rw [List.mem_singleton.mp h]
      exact hu
  unfold handleSendMessage
  rw [show (mkBotMsg botId ts p).id = botId from rfl]
  show finishStream botId
    (applyChunks botId evs ((prev ++ [userMsg]) ++ [mkBotMsg botId ts p])) = _
  rw [applyChunks_append botId evs (prev ++ [userMsg]) (mkBotMsg botId ts p) hprev2 rfl]
  exact map_updateById_append (prev ++ [userMsg]) _ botId _ hprev2 rfl

/-- Witness for C5: two chunks `"ab"`, `"cd"` delivered to a fresh stream end
as text `"abcd"` with `isStreaming = false`. -/
theorem streaming_text_append_only_witness :
    handleSendMessage [] { id := 0, role := .user, text := "hi".toList } (mkBotMsg 1 5 .gpt)
        (.success [{ chunk := "ab".toList }, { chunk := "cd".toList }]) =
      [{ id := 0, role := .user, text := "hi".toList },
        { mkBotMsg 1 5 .gpt with text := "abcd".toList, isStreaming := false }] := by
  rw [streaming_text_append_only [] { id := 0, role := .user, text := "hi".toList } 1 5 .gpt
    [{ chunk := "ab".toList }, { chunk := "cd".toList }] (by simp) (by decide)]
  decide

/-- C6: if the provider stream throws after any prefix of its chunk callbacks,
the catch branch leaves the model message (identified by its stable id) with
the fixed apology text and `isStreaming = false`, while the preceding user
message and all prior history messages are exactly unmodified.  The model
invokes the provider exactly once, so no retry is attempted. -/
theorem stream_failure_terminal (prev : List Message) (userMsg : Message)
    (botId ts : Nat) (p : ModelProvider) (evs : List ChunkEvent)
    (hprev : ∀ m ∈ prev, m.id ≠ botId) (hu : userMsg.id ≠ botId) :
    handleSendMessage prev userMsg (mkBotMsg botId ts p) (.failure evs) =
      (prev ++ [userMsg]) ++
        [{ mkBotMsg botId ts p with
            text := apologyText
            isStreaming := false
            groundingMetadata := lastSomeMeta evs none }] := by
  have hprev2 : ∀ m ∈ prev ++ [userMsg], m.id ≠ botId := by
    intro m hm
    rcases List.mem_append.mp hm with h | h
    · exact hprev m h
    · rw [List.mem_singleton.mp h]
      exact hu
  unfold handleSendMessage
  rw [show (mkBotMsg botId ts p).id = botId from rfl]
  show failStream botId
    (applyChunks botId evs ((prev ++ [userMsg]) ++ [mkBotMsg botId ts p])) = _
  rw [applyChunks_append botId evs (prev ++ [userMsg]) (mkBotMsg botId ts p) hprev2 rfl]
  exact map_updateById_append (prev ++ [userMsg]) _ botId _ hprev2 rfl

/-- Witness for C6: a failure after one delivered chunk ends with the apology
text, `isStreaming = false`, and the user message untouched. -/
theorem stream_failure_terminal_witness :
    handleSendMessage [] { id := 0, role := .user, text := "hi".toList } (mkBotMsg 1 5 .gemini)
        (.failure [{ chunk := "ab".toList }]) =
      [{ id := 0, role := .user, text := "hi".toList },
        { mkBotMsg 1 5 .gemini with text := apologyText, isStreaming := false }] := by
  rw [stream_failure_terminal [] { id := 0, role := .user, text := "hi".toList } 1 5 .gemini
    [{ chunk := "ab".toList }] (by simp) (by decide)]
  decide

/-- A concrete web source `A` and the two metadata values of the C1
counterexample. -/
def srcA : WebSource := { uri := "https://a.example".toList, title := "A".toList }

def srcB : WebSource := { uri := "https://b.example".toList, title := "B".toList }

def metaA : GroundingMetadata := { groundingChunks := [{ web := some srcA }] }

def metaB : GroundingMetadata := { groundingChunks := [{ web := some srcB }] }

/-- Counterexample to C1 as stated: the first chunk carries metadata with
source `A`, the second chunk carries its own metadata with source `B` only.
After the second chunk the message's metadata is exactly the second chunk's
(`metadata || msg.groundingMetadata` is replacement, not a merge), and source
`A` is no longer among its web sources. -/
theorem groundingMetadata_merge_cex :
    (applyChunks 1 [{ chunk := "x".toList, metadata := some metaA },
        { chunk := "y".toList, metadata := some metaB }]
      [mkBotMsg 1 0 .gemini]).map (fun m => m.groundingMetadata) = [some metaB] ∧
    srcA ∈ webSources metaA ∧ srcA ∉ webSources metaB := by
  refine ⟨by decide, by decide, by decide⟩

/-- C1 (amended): metadata handling is last-non-null, not additive.  A chunk
carrying no metadata retains the previously stored metadata (so a first chunk
without metadata followed by one carrying sources `[A]` leaves the message
holding `[A]`, not null — see the witness), while a later chunk carrying its
own metadata replaces the stored value entirely; over a stream the message
ends holding the metadata of the last chunk that carried any. -/
theorem groundingMetadata_last_write (botId : Nat) (prev : List Message) (b : Message)
    (evs : List ChunkEvent) (hprev : ∀ m ∈ prev, m.id ≠ botId) (hb : b.id = botId) :
    applyChunks botId evs (prev ++ [b]) =
      prev ++ [{ b with
        text := b.text ++ (evs.map (·.chunk)).flatten
        groundingMetadata := lastSomeMeta evs b.groundingMetadata }] :=
  applyChunks_append botId evs prev b hprev hb

/-- Witness for C1 (amended), the spec's scenario: first chunk with no
metadata, second chunk carrying sources `[A]`; the message ends holding `[A]`,
not null. -/
theorem groundingMetadata_last_write_witness :
    applyChunks 1 [{ chunk := "x".toList }, { chunk := "y".toList, metadata := some metaA }]
        ([] ++ [mkBotMsg 1 0 .gemini]) =
      [{ mkBotMsg 1 0 .gemini with text := "xy".toList, groundingMetadata := some metaA }] := by
  rw [groundingMetadata_last_write 1 [] (mkBotMsg 1 0 .gemini)
    [{ chunk := "x".toList }, { chunk := "y".toList, metadata := some metaA }] (by simp) rfl]
  decide

/-! ## Provider adapter layer (`services/gemini.ts`) -/

/-- The apostrophe character, spelled by code point. -/
def apos : Char := Char.ofNat 39

/-- `BASE_INSTRUCTION` from `services/gemini.ts`. -/
def BASE_INSTRUCTION : List Char :=
  ("You are KynAI, an advanced AI assistant created by Zent Technology Inc. " ++
    "You represent the future of AI innovation. You are friendly, intelligent, and precise. " ++
    "You can see images, listen to audio, watch videos, and read files provided by the user. " ++
    "Always use Markdown to format your responses neatly.").toList

/-- `FEW_SHOT_COT` from `services/gemini.ts` (template literal, including its
leading and trailing newlines and indentation). -/
def FEW_SHOT_COT : List Char :=
  ("\n    \n    Here are examples of the Chain of Thought (CoT) process you must follow:\n\n" ++
    "    [Example 1]\n    User: If I have 3 apples and you take away 2, how many do you have?\n" ++
    "    Model: <think>\n    1. **Analyze the Request**: The user is asking a riddle-like math question.\n" ++
    "    2. **Identify Key Elements**:\n       - User starts with 3 apples.\n" ++
    "       - \"You\" (the AI) take 2 apples.\n       - The question asks \"how many do *you* have?\".\n" ++
    "    3. **Deduce**: The question is about *my* possession, not what").toList ++
  [apos] ++
  ("s left. If I take 2, I have 2.\n    4. **Conclusion**: The answer is 2.\n    </think>\n" ++
    "    If I take 2 apples, I have 2 apples.\n\n    [Example 2]\n    User: What is 15% of 80 plus 5?\n" ++
    "    Model: <think>\n    1. **Break down the math**:\n       - Task 1: Calculate 15% of 80.\n" ++
    "       - Task 2: Add 5 to the result.\n    2. **Execute Task 1**:\n       - 10% of 80 is 8.\n" ++
    "       - 5% of 80 is 4.\n       - 8 + 4 = 12. So, 15% of 80 is 12.\n" ++
    "    3. **Execute Task 2**:\n       - 12 + 5 = 17.\n" ++
    "    4. **Final Check**: 0.15 * 80 = 12. 12 + 5 = 17. Calculation is correct.\n" ++
    "    </think>\n    The result is 17.\n").toList

/-- The chain-of-thought directive appended when `useDeepThink` is set
(`FEW_SHOT_COT` follows it immediately in the template literal). -/
def DEEP_THINK_DIRECTIVE : List Char :=
  ("\n\nIMPORTANT: You are using a Few-Shot Chain of Thought (CoT) approach. " ++
    "You MUST engage in deep reasoning before answering. Wrap your thought process inside " ++
    "<think> and </think> tags. Use Markdown formatting (lists, bolding, etc.) inside your " ++
    "thoughts to keep them organized. After the closing </think> tag, you MUST provide your " ++
    "final, clear, and detailed response to the user. Do not stop after thinking. " ++
    "The user will only see the text outside the tags as the main answer.\n").toList

/-- The web-search directive appended only when `useSearch` is set and the
provider is the multimodal one. -/
def SEARCH_DIRECTIVE : List Char :=
  ("\n\nAdditionally, you have access to Google Search. You MUST use it to verify facts " ++
    "*during* your <think> process if the user asks for real-time info or facts you need " ++
    "to verify. Summarize results clearly and cite sources.").toList

/-- `getSystemInstruction` from `services/gemini.ts`. -/
def getSystemInstruction (useSearch useDeepThink : Bool) (provider : ModelProvider) : List Char :=
  let instruction := BASE_INSTRUCTION
  let instruction :=
    if useDeepThink then instruction ++ DEEP_THINK_DIRECTIVE ++ FEW_SHOT_COT else instruction
  if useSearch ∧ provider = .gemini then instruction ++ SEARCH_DIRECTIVE else instruction

/-- Roles of the flat message list sent by the HTTP line-streaming driver. -/
inductive ChatRole
  | system
  | user
  | assistant
deriving DecidableEq, Repr

/-- One `{role, content}` entry of the HTTP driver's message list. -/
structure ChatTurn where
  role : ChatRole
  content : List Char
deriving DecidableEq, Repr

/-- The JSON body posted by `streamGptResponse`:
`{messages, model: 'openai', seed, jsonMode: false}`. -/
structure GptRequestBody where
  messages : List ChatTurn
  model : List Char
  seed : Nat
  jsonMode : Bool
deriving DecidableEq, Repr

/-- The request constructed by `streamGptResponse`: the system instruction is
built with the search flag hard-coded to `false`, prior history minus its last
entry is flattened to role/content pairs, and the new user turn is appended.
`seed` stands for the `Math.floor(Math.random() * 1000)` draw, fixed as a
parameter. -/
def streamGptRequest (history : List Message) (newMessage : List Char)
    (useDeepThink : Bool) (seed : Nat) : GptRequestBody :=
  { messages :=
      { role := .system, content := getSystemInstruction false useDeepThink .gpt } ::
        (history.dropLast.map fun msg =>
          { role := if msg.role = .model then ChatRole.assistant else ChatRole.user
            content := msg.text }) ++
        [{ role := .user, content := newMessage }]
    model := "openai".toList
    seed := seed
    jsonMode := false }

/-- The chunk events the HTTP driver forwards: each decoded fragment verbatim,
with no grounding metadata (the orchestrator wraps its callback as
`(text) => onChunk(text)`). -/
def gptChunkEvents (respChunks : List (List Char)) : List ChunkEvent :=
  respChunks.map fun c => { chunk := c }

/-- A part of a multimodal content entry: text or inline binary data. -/
inductive Part
  | text (s : List Char)
  | inlineData (mimeType data : List Char)
deriving DecidableEq, Repr

/-- The part list built for one message by `streamGeminiResponse`: a text part
when the text is non-empty, then one inline-data part per attachment. -/
def msgParts (msg : Message) : List Part :=
  (if msg.text ≠ [] then [Part.text msg.text] else []) ++
    msg.attachments.map fun att => Part.inlineData att.mimeType att.data

/-- One role/parts entry of the multimodal history. -/
structure Content where
  role : List Char
  parts : List Part
deriving DecidableEq, Repr

/-- `contents` mapping of `streamGeminiResponse`. -/
def msgToContent (msg : Message) : Content :=
  { role := if msg.role = .user then "user".toList else "model".toList
    parts := msgParts msg }

/-- `validHistory` of `streamGeminiResponse`: all but the last mapped entry,
keeping only entries with a non-empty part list. -/
def geminiValidHistory (history : List Message) : List Content :=
  ((history.map msgToContent).dropLast).filter fun c => 0 < c.parts.length

/-- `currentMessageParts` of `streamGeminiResponse`: a text part for a
non-empty new message, inline-data parts for the last history message's
attachments, and the single-space text part fallback when both are absent. -/
def currentMessageParts (lastMessage : Message) (newMessage : List Char) : List Part :=
  let base :=
    (if newMessage ≠ [] then [Part.text newMessage] else []) ++
      lastMessage.attachments.map fun att => Part.inlineData att.mimeType att.data
  if base = [] then [Part.text " ".toList] else base

/-- The chat call issued by `streamGeminiResponse`: model id, filtered
history, system instruction, search tool flag, optional thinking budget, and
the live-turn part list. -/
structure GeminiCall where
  model : List Char
  history : List Content
  systemInstruction : List Char
  searchToolEnabled : Bool
  thinkingBudget : Option Nat
  message : List Part
deriving DecidableEq, Repr

/-- The request constructed by `streamGeminiResponse` (`none` when the history
is empty, in which case the source would fault reading
`lastMessage.attachments`). -/
def streamGeminiRequest (history : List Message) (newMessage : List Char)
    (useSearch useDeepThink : Bool) : Option GeminiCall :=
  history.getLast?.map fun lastMessage =>
    { model := "gemini-2.5-flash".toList
      history := geminiValidHistory history
      systemInstruction := getSystemInstruction useSearch useDeepThink .gemini
      searchToolEnabled := useSearch
      thinkingBudget := if useDeepThink then some 2048 else none
      message := currentMessageParts lastMessage newMessage }

/-- The request issued by the dispatching entry point `streamChatResponse`:
exactly one driver executes per request, keyed on the provider. -/
inductive ProviderRequest
  | gemini (call : Option GeminiCall)
  | gpt (body : GptRequestBody)
deriving DecidableEq, Repr

/-- `streamChatResponse` from `services/gemini.ts`, as the request it
produces: for provider `gpt` it invokes `streamGptResponse` without the
search flag; otherwise the multimodal driver with all flags. -/
def streamChatRequest (history : List Message) (newMessage : List Char)
    (useSearch useDeepThink : Bool) (provider : ModelProvider) (seed : Nat) : ProviderRequest :=
  if provider = .gpt then
    ProviderRequest.gpt (streamGptRequest history newMessage useDeepThink seed)
  else
    ProviderRequest.gemini (streamGeminiRequest history newMessage useSearch useDeepThink)

/-- C7: for provider `gpt`, the request is identical under `useSearch = true`
and `useSearch = false` — the dispatcher never forwards the search flag to the
GPT driver (`streamGptRequest` does not even take it), and the GPT system
instruction is built with search disabled. -/
theorem gpt_ignores_search (history : List Message) (newMessage : List Char)
    (useSearch useDeepThink : Bool) (seed : Nat) :
    streamChatRequest history newMessage useSearch useDeepThink .gpt seed =
      streamChatRequest history newMessage false useDeepThink .gpt seed ∧
    streamChatRequest history newMessage useSearch useDeepThink .gpt seed =
      ProviderRequest.gpt (streamGptRequest history newMessage useDeepThink seed) ∧
    (streamGptRequest history newMessage useDeepThink seed).messages.head? =
      some { role := .system, content := getSystemInstruction false useDeepThink .gpt } ∧
    getSystemInstruction useSearch useDeepThink .gpt =
      getSystemInstruction false useDeepThink .gpt := by
  refine ⟨rfl, ?_, rfl, ?_⟩
  · unfold streamChatRequest
    rw [if_pos rfl]
  · simp [getSystemInstruction]

/-- C10: the live-turn part list of the multimodal driver is never empty, and
when the new user text is empty and the last history message has no
attachments it is exactly the single-space text part. -/
theorem currentMessageParts_nonempty (lastMessage : Message) (newMessage : List Char) :
    currentMessageParts lastMessage newMessage ≠ [] ∧
    (newMessage = [] → lastMessage.attachments = [] →
      currentMessageParts lastMessage newMessage = [Part.text " ".toList]) := by
  constructor
  · have hgen : ∀ l : List Part, (if l = [] then [Part.text " ".toList] else l) ≠ [] := by
      intro l
      split
      · simp
      · assumption
    exact hgen _
  · intro h1 h2
    simp [currentMessageParts, h1, h2]

/-- Witness for C10 at a concrete attachment-free message and empty new
text. -/
theorem currentMessageParts_nonempty_witness :
    currentMessageParts { id := 0, role := .user, text := "hi".toList } [] =
      [Part.text " ".toList] :=
  (currentMessageParts_nonempty { id := 0, role := .user, text := "hi".toList } []).2 rfl rfl

/-! ## Session titles (the app root's session-sync effect) -/

/-- The provisional placeholder title. -/
def newChatTitle : List Char := "New Chat".toList

/-- The title set at session creation inside `handleSendMessage`:
`text.slice(0, 30) || 'New Chat'`. -/
def deriveTitle (text : List Char) : List Char :=
  if text.take 30 = [] then newChatTitle else text.take 30

/-- The title update of the session-sync effect:
`session.title === 'New Chat' ? (messages[0]?.text.slice(0, 30) || 'New Chat') : session.title`.
`firstText` is the optional first message's text (`none` models
`messages[0]` being absent). -/
def syncTitle (sessionTitle : List Char) (firstText : Option (List Char)) : List Char :=
  if sessionTitle = newChatTitle then
    match firstText with
    | none => newChatTitle
    | some t => if t.take 30 = [] then newChatTitle else t.take 30
  else sessionTitle

/-- C9: the derived title is the first message's leading text truncated to at
most 30 characters; once a session's title differs from the placeholder
`'New Chat'`, no sync-effect run (triggered by later sends, streaming chunk
updates or stream completion) ever changes it; and any number of sync-effect
runs over a session whose first message has text `t` leave the title at the
derived value. -/
theorem session_title_freeze (t title : List Char) (n : Nat) :
    (deriveTitle t).length ≤ 30 ∧
    (title ≠ newChatTitle → ∀ ft, syncTitle title ft = title) ∧
    (fun s => syncTitle s (some t))^[n] (deriveTitle t) = deriveTitle t := by
  refine ⟨?_, ?_, ?_⟩
  · unfold deriveTitle
    split
    · decide
    · simp only [List.length_take]
      omega
  · intro h ft
    unfold syncTitle
    rw [if_neg h]
  · have hstep : syncTitle (deriveTitle t) (some t) = deriveTitle t := by
      unfold syncTitle
      split
      · unfold deriveTitle
        rfl
      · rfl
    induction n with
    | zero => rfl
    | succ n ih =>
      rw [Function.iterate_succ_apply', ih]
      exact hstep

/-- Witness for C9: a concrete non-placeholder title is frozen by a sync run,
and two sync runs keep the derived title. -/
theorem session_title_freeze_witness :
    (deriveTitle "Hi there".toList).length ≤ 30 ∧
    syncTitle "Hi there".toList (some "other text".toList) = "Hi there".toList ∧
    (fun s => syncTitle s (some "Hi there".toList))^[2] (deriveTitle "Hi there".toList) =
      deriveTitle "Hi there".toList := by
  obtain ⟨a, b, c⟩ := session_title_freeze "Hi there".toList "Hi there".toList 2
  exact ⟨a, b (by decide) (some "other text".toList), c⟩

/-! ## Reveal pacer (the typewriter effect of `ChatMessage`) -/

/-- The per-tick advance of the typewriter interval:
`Math.max(1, Math.floor(diff / 20)) + (Math.random() > 0.5 ? 2 : 1)`; the
random draw is modelled by the `jitter` flag. -/
def revealChunkSize (target current : List Char) (jitter : Bool) : Nat :=
  max 1 ((target.length - current.length) / 20) + (if jitter then 2 else 1)

/-- One tick of the typewriter interval: while the visible text is shorter
than the target it advances to `target.slice(0, current.length + chunkSize)`;
otherwise it leaves the text unchanged. -/
def revealTick (target : List Char) (jitter : Bool) (current : List Char) : List Char :=
  if current.length < target.length then
    target.take (current.length + revealChunkSize target current jitter)
  else current

/-- The effect schedules an interval exactly when
`displayedText.length < finalContent.length`. -/
def schedulesInterval (target current : List Char) : Bool :=
  current.length < target.length

/-- `n` successive interval ticks with jitter stream `jitters`. -/
def revealRun (target : List Char) (jitters : Nat → Bool) : Nat → List Char → List Char
  | 0, current => current
  | n + 1, current =>
    revealRun target (fun k => jitters (k + 1)) n (revealTick target (jitters 0) current)

theorem revealChunkSize_pos (target current : List Char) (jitter : Bool) :
    1 ≤ revealChunkSize target current jitter :=
  Nat.le_trans (Nat.le_max_left 1 _) (Nat.le_add_right _ _)

theorem revealRun_complete (target : List Char) :
    ∀ (n k : Nat) (jitters : Nat → Bool), target.length ≤ k + n →
      revealRun target jitters n (target.take k) = target := by
  intro n
  induction n with
  | zero =>
    intro k jitters h
    exact List.take_of_length_le (by omega)
  | succ n ih =>
    intro k jitters h
    show revealRun target (fun j => jitters (j + 1)) n
      (revealTick target (jitters 0) (target.take k)) = target
    by_cases hk : (target.take k).length < target.length
    · have hklen : (target.take k).length = k := by
        rw [List.length_take] at hk ⊢
        omega
      have hcs := revealChunkSize_pos target (target.take k) (jitters 0)
      rw [revealTick, if_pos hk, hklen]
      exact ih (k + revealChunkSize target (target.take k) (jitters 0)) _ (by omega)
    · have hfull : target.take k = target := by
        rw [List.length_take] at hk
        exact List.take_of_length_le (by omega)
      rw [revealTick, if_neg hk, hfull]
      have := ih target.length (fun j => jitters (j + 1)) (by omega)
      rwa [List.take_length] at this

/-- C8: for a static target of length `N` the pacer's visible text is always a
prefix-slice of the target of length at most `N`; a tick taken while the
visible length is below `N` strictly increases it by at least one character;
`N` ticks therefore reach the full target exactly; and once the visible length
equals `N` no interval is scheduled. -/
theorem reveal_pacer_converges (target : List Char) (jitters : Nat → Bool) (k : Nat) :
    (∀ j, ∃ m, revealTick target j (target.take k) = target.take m ∧
      (revealTick target j (target.take k)).length ≤ target.length) ∧
    ((target.take k).length < target.length →
      (target.take k).length + 1 ≤ (revealTick target (jitters 0) (target.take k)).length) ∧
    revealRun target jitters target.length (target.take k) = target ∧
    ((target.take k).length = target.length → schedulesInterval target (target.take k) = false) := by
  refine ⟨?_, ?_, ?_, ?_⟩
  · intro j
    unfold revealTick
    split
    · exact ⟨_, rfl, by rw [List.length_take]; omega⟩
    · exact ⟨k, rfl, by rw [List.length_take]; omega⟩
  · intro hlt
    have hcs := revealChunkSize_pos target (target.take k) (jitters 0)
    rw [revealTick, if_pos hlt]
    simp only [List.length_take] at hlt ⊢
    omega
  · exact revealRun_complete target target.length k jitters (by omega)
  · intro heq
    simp [schedulesInterval, heq]

/-- Witness for C8: from the empty visible prefix of the target `"abc"`,
three ticks reach the full text and the first tick strictly advances. -/
theorem reveal_pacer_converges_witness :
    revealRun "abc".toList (fun _ => true) 3 ("abc".toList.take 0) = "abc".toList ∧
    ("abc".toList.take 0).length + 1 ≤
      (revealTick "abc".toList true ("abc".toList.take 0)).length := by
  obtain ⟨_, hprog, hrun, _⟩ := reveal_pacer_converges "abc".toList (fun _ => true) 0
  exact ⟨hrun, hprog (by decide)⟩

end Kynai
